import Mathlib

/-!
Verification of the block-chain file storage core (data.py, package.py).

Modelling conventions:
* Byte strings are `List Nat` (each entry one byte).
* SHA-256 digests are modelled as a free algebra `Hash`: `Hash.shaBytes bs`
  is the hex digest of the byte stream `bs` (as produced by repeated
  `sha256.update` calls), `Hash.shaBlock ...` is the digest of the pickle
  serialization of a block (so it depends on every field, including
  `hash_previous`), and `Hash.raw s` is an arbitrary user-supplied string
  used in a hash position.  Constructor injectivity is exactly the standard
  collision-freeness idealisation of SHA-256 plus canonical serialization.
* Python dictionaries become association lists with insertion order and
  first-match lookup; keys are unique because insertion overwrites in place.
* The unbounded `while` walks of the Python code take an explicit `fuel`
  bound; every theorem below either supplies provably sufficient fuel or
  holds for all fuel values.
* Exceptions become `Except` values; raising before any mutation is
  modelled by returning the unchanged state together with the error.
-/

namespace Networks

/-- Byte strings. -/
abbrev Bytes := List Nat

/-- SHA-256 digests and the strings standing in hash positions, as a free
algebra (collision-free hashing, canonical pickling). -/
inductive Hash where
  | shaBytes (bs : Bytes) : Hash
  | shaBlock (fileHash : Hash) (indexAll : Nat) (ordinal : Nat) (chunk : Bytes)
      (filename : String) (hashPrevious : Option Hash) : Hash
  | raw (s : String) : Hash

/-- Boolean equality on digests (structural). -/
def Hash.beq : Hash → Hash → Bool
  | .shaBytes a, .shaBytes b => a == b
  | .shaBlock f1 i1 o1 c1 n1 p1, .shaBlock f2 i2 o2 c2 n2 p2 =>
      Hash.beq f1 f2 && i1 == i2 && o1 == o2 && c1 == c2 && n1 == n2 &&
        (match p1, p2 with
         | none, none => true
         | some x, some y => Hash.beq x y
         | _, _ => false)
  | .raw a, .raw b => a == b
  | _, _ => false

theorem Hash.beq_iff : (a b : Hash) → (Hash.beq a b = true ↔ a = b)
  | .shaBytes a, .shaBytes b => by rw [Hash.beq.eq_def]; simp
  | .shaBytes _, .shaBlock _ _ _ _ _ _ => by rw [Hash.beq.eq_def]; simp
  | .shaBytes _, .raw _ => by rw [Hash.beq.eq_def]; simp
  | .shaBlock _ _ _ _ _ _, .shaBytes _ => by rw [Hash.beq.eq_def]; simp
  | .shaBlock f1 i1 o1 c1 n1 p1, .shaBlock f2 i2 o2 c2 n2 p2 => by
      have hf := Hash.beq_iff f1 f2
      cases p1 with
      | none => cases p2 with
        | none => rw [Hash.beq.eq_def]; simp [hf]; tauto
        | some y => rw [Hash.beq.eq_def]; simp
      | some x => cases p2 with
        | none => rw [Hash.beq.eq_def]; simp
        | some y =>
            have hxy := Hash.beq_iff x y
            rw [Hash.beq.eq_def]; simp [hf, hxy]
            tauto
  | .shaBlock _ _ _ _ _ _, .raw _ => by rw [Hash.beq.eq_def]; simp
  | .raw _, .shaBytes _ => by rw [Hash.beq.eq_def]; simp
  | .raw _, .shaBlock _ _ _ _ _ _ => by rw [Hash.beq.eq_def]; simp
  | .raw a, .raw b => by rw [Hash.beq.eq_def]; simp

instance : DecidableEq Hash := fun a b =>
  decidable_of_iff (Hash.beq a b = true) (Hash.beq_iff a b)

/-- The `Block` class of data.py: an immutable record of a file chunk. -/
structure Block where
  hash : Hash
  index_all : Nat
  ordinal : Nat
  chunk : Bytes
  filename : String
  hash_previous : Option Hash := none
deriving DecidableEq

/-- The identity Python `Block.__eq__` compares: every field except
`hash_previous`. -/
def pyKey (b : Block) : Hash × Nat × Nat × Bytes × String :=
  (b.hash, b.index_all, b.ordinal, b.chunk, b.filename)

/-- Python `Block.__eq__` of data.py: equality ignoring `hash_previous`. -/
def blockEq (a b : Block) : Bool :=
  a.hash = b.hash && a.index_all = b.index_all && a.ordinal = b.ordinal
    && a.chunk = b.chunk && a.filename = b.filename

/-- Method `Block.set_previous` of data.py: copy a block, replacing `hash_previous`. -/
def Block.set_previous (hp : Option Hash) (b : Block) : Block :=
  { hash := b.hash, index_all := b.index_all, ordinal := b.ordinal,
    filename := b.filename, chunk := b.chunk, hash_previous := hp }

/-- Function `hash_block` of data.py: SHA-256 of the pickle serialization of the
block, hence determined by all six fields. -/
def hash_block (b : Block) : Hash :=
  .shaBlock b.hash b.index_all b.ordinal b.chunk b.filename b.hash_previous

/-- Python falsiness of an optional hash string (`if not hashcode`):
`None` and the empty string are falsy. -/
def falsyHash : Option Hash → Bool
  | none => true
  | some (.raw s) => s = ""
  | some _ => false

/-- First-match lookup in an association list (Python `dict.get`; keys are
unique in every dictionary the code builds). -/
def dictFind (m : List (Hash × Block)) (k : Hash) : Option Block :=
  match m with
  | [] => none
  | (k1, b) :: rest => if k1 = k then some b else dictFind rest k

/-- Python `dict` assignment `m[k] = b`: overwrite in place if the key is
present, otherwise append (insertion order preserved). -/
def dictInsert (m : List (Hash × Block)) (k : Hash) (b : Block) :
    List (Hash × Block) :=
  match m with
  | [] => [(k, b)]
  | (k1, b1) :: rest =>
      if k1 = k then (k1, b) :: rest else (k1, b1) :: dictInsert rest k b

/-- The `MemoryDictionary` class of data.py: a map from block hash to block
plus the head pointer. -/
structure MemoryDictionary where
  map : List (Hash × Block) := []
  head : Option Hash := none
deriving DecidableEq

/-- A fresh `MemoryDictionary` (empty map, no head). -/
def emptyMem : MemoryDictionary := {}

/-- Method `MemoryDictionary.get_head`. -/
def MemoryDictionary.get_head (m : MemoryDictionary) : Option Hash := m.head

/-- Method `MemoryDictionary.update_head`. -/
def MemoryDictionary.update_head (m : MemoryDictionary) (h : Hash) :
    MemoryDictionary := { m with head := some h }

/-- Method `MemoryDictionary.size`: number of keys of the map. -/
def MemoryDictionary.size (m : MemoryDictionary) : Nat := m.map.length

/-- Method `MemoryDictionary.get`: `None` for a falsy hashcode, else map lookup. -/
def MemoryDictionary.get (m : MemoryDictionary) (hashcode : Option Hash) :
    Option Block :=
  if falsyHash hashcode then none
  else
    match hashcode with
    | none => none
    | some k => dictFind m.map k

/-- Method `MemoryDictionary.add`: store the block under `hash_block` and return
the hashcode. -/
def MemoryDictionary.add (m : MemoryDictionary) (b : Block) :
    Hash × MemoryDictionary :=
  let k := hash_block b
  (k, { m with map := dictInsert m.map k b })

/-- The `BlockSectionInconsistentError` of exceptions.py. -/
inductive SectionError where
  | inconsistent
deriving DecidableEq

/-- The `DuplicateBlockError` of exceptions.py. -/
inductive ChainError where
  | duplicateBlock
deriving DecidableEq

/-- Python `list.sort(key=lambda x: x.ordinal)`: a stable sort by ordinal. -/
def sortOrd (bl : List Block) : List Block :=
  bl.mergeSort (fun a b => a.ordinal ≤ b.ordinal)

/-- Function `generate_file_hash` of data.py: raise on an empty list, on a duplicate
ordinal (set cardinality differs from list length), or on blocks that
disagree with the first block on hash, index_all or filename; otherwise the
SHA-256 of the chunks sorted by ordinal. -/
def generate_file_hash (blocks : List Block) : Except SectionError Hash :=
  match blocks with
  | [] => .error .inconsistent
  | b0 :: _ =>
      if (blocks.map Block.ordinal).dedup.length ≠ blocks.length then
        .error .inconsistent
      else if blocks.any (fun b =>
          !(b.hash == b0.hash && b.index_all == b0.index_all
            && b.filename == b0.filename)) then
        .error .inconsistent
      else .ok (.shaBytes (((sortOrd blocks).map Block.chunk).flatten))

/-- The `while` loop of `BlockChain.__get_blocks_for_hash`: follow the
chain, re-check each link, collect blocks matching `hashcode`, stop when
the `index_all` of the block just collected equals the number collected. -/
def collectLoop (m : MemoryDictionary) (hashcode : Hash) :
    Nat → Option Hash → Option Block → List Block → List Block
  | 0, _, _, blocks => blocks
  | _ + 1, _, none, blocks => blocks
  | fuel + 1, head, some block, blocks =>
      if head ≠ some (hash_block block) then blocks
      else if block.hash = hashcode then
        if block.index_all = (blocks ++ [block]).length then blocks ++ [block]
        else collectLoop m hashcode fuel block.hash_previous
          (m.get block.hash_previous) (blocks ++ [block])
      else collectLoop m hashcode fuel block.hash_previous
        (m.get block.hash_previous) blocks

/-- Method `BlockChain.__get_blocks_for_hash` of data.py. -/
def getBlocksForHash (m : MemoryDictionary) (hashcode : Hash) (fuel : Nat) :
    List Block :=
  match m.get_head with
  | none => []
  | some head => collectLoop m hashcode fuel (some head) (m.get (some head)) []

/-- Method `BlockChain.check_hash` of data.py. -/
def check_hash (m : MemoryDictionary) (hashcode : Hash) (fuel : Nat) :
    Bool × Nat :=
  let blocks := getBlocksForHash m hashcode fuel
  match generate_file_hash blocks with
  | .ok d => (d == hashcode, blocks.length)
  | .error _ => (false, 0)

/-- Insertion into a Python `set` modelled as a duplicate-free list in
insertion order. -/
def setInsert (s : List Hash) (h : Hash) : List Hash :=
  if h ∈ s then s else s ++ [h]

/-- The `while` loop of `BlockChain.check`: walk the whole chain verifying
each link, accumulating the set of file hashes; the boolean records whether
a bad link was hit, the option is the final value of `head`. -/
def checkLoop (m : MemoryDictionary) :
    Nat → Option Hash → Option Block → List Hash → List Hash × Option Hash × Bool
  | 0, head, _, acc => (acc, head, true)
  | _ + 1, head, none, acc => (acc, head, true)
  | fuel + 1, head, some block, acc =>
      if head ≠ some (hash_block block) then (acc, head, false)
      else checkLoop m fuel block.hash_previous (m.get block.hash_previous)
        (setInsert acc block.hash)

/-- Method `BlockChain.check` of data.py. -/
def BlockChain.check (m : MemoryDictionary) (fuel : Nat) : Bool × Nat :=
  match m.get_head with
  | none => (true, 0)
  | some head =>
      match checkLoop m fuel (some head) (m.get (some head)) [] with
      | (_, _, false) => (false, 0)
      | (fhs, finalHead, true) =>
          if finalHead ≠ none then (false, 0)
          else (fhs.all (fun hc => (check_hash m hc fuel).1), fhs.length)

/-- Method `BlockChain.get` of data.py: the collection walk, sorted by ordinal. -/
def BlockChain.get (m : MemoryDictionary) (hashcode : Hash) (fuel : Nat) :
    List Block :=
  sortOrd (getBlocksForHash m hashcode fuel)

/-- The duplicate-detection `while` loop of `BlockChain.add`: walk the
chain comparing each block to the new block with `Block.__eq__`. -/
def dupWalk (m : MemoryDictionary) (nb : Block) : Nat → Option Block → Bool
  | 0, _ => false
  | _ + 1, none => false
  | fuel + 1, some block =>
      if blockEq block nb then true
      else dupWalk m nb fuel (m.get block.hash_previous)

/-- Method `BlockChain.add` of data.py: read the head, anoint the new block with
it, walk the chain for a duplicate (raising without mutation), then store
the block and move the head. -/
def BlockChain.add (m : MemoryDictionary) (b : Block) (fuel : Nat) :
    Except ChainError Hash × MemoryDictionary :=
  let head := m.get_head
  let nb := Block.set_previous head b
  if dupWalk m nb fuel (m.get head) then (.error .duplicateBlock, m)
  else
    let km := m.add nb
    (.ok km.1, km.2.update_head km.1)

/-- Method `BlockChain.size` of data.py. -/
def BlockChain.size (m : MemoryDictionary) : Nat := m.size

/-- States reachable from a fresh in-memory chain by successful `add`
calls; `Built m bs` records the blocks added, oldest first.  Fuel
`m.size + 1` bounds the duplicate walk, which visits each stored block at
most once (proved below). -/
inductive Built : MemoryDictionary → List Block → Prop where
  | nil : Built emptyMem []
  | step {m : MemoryDictionary} {bs : List Block} {b : Block} {k : Hash}
      {m1 : MemoryDictionary} : Built m bs →
      BlockChain.add m b (m.size + 1) = (.ok k, m1) →
      Built m1 (bs ++ [b])

/-- Hash of the newest block of a chain (newest first), the sentinel for
the empty chain. -/
def headHash : List Block → Option Hash
  | [] => none
  | b :: _ => some (hash_block b)

/-- The chain shape: in every block the field `hash_previous` is the hash of the next
older block, the oldest block carrying the sentinel. -/
def Linked : List Block → Prop
  | [] => True
  | b :: rest => b.hash_previous = headHash rest ∧ Linked rest

/-- The store contents corresponding to a chain (newest first): entries in
insertion order, keyed by block hash. -/
def chainEntries (c : List Block) : List (Hash × Block) :=
  c.reverse.map (fun b => (hash_block b, b))

/-- The chain (newest first) produced by adding the blocks `bs` (oldest
first) to a fresh store: each is anointed with the previous head. -/
def buildChain (bs : List Block) : List Block :=
  bs.foldl (fun c b => Block.set_previous (headHash c) b :: c) []

/-- The invariant tying a store state to the chain of blocks it holds. -/
structure ChainInv (m : MemoryDictionary) (c : List Block) : Prop where
  head_eq : m.head = headHash c
  map_eq : m.map = chainEntries c
  linked : Linked c

/-! ### Basic facts about blocks, hashing and the dictionary -/

theorem hash_block_injective : Function.Injective hash_block := by
  intro a b h
  simp only [hash_block, Hash.shaBlock.injEq] at h
  obtain ⟨h1, h2, h3, h4, h5, h6⟩ := h
  cases a; cases b; simp_all

theorem blockEq_iff (a b : Block) : blockEq a b = true ↔ pyKey a = pyKey b := by
  simp only [blockEq, pyKey, Bool.and_eq_true, decide_eq_true_eq, Prod.mk.injEq]
  tauto

theorem blockEq_self (b : Block) : blockEq b b = true :=
  (blockEq_iff b b).mpr rfl

theorem pyKey_set_previous (hp : Option Hash) (b : Block) :
    pyKey (Block.set_previous hp b) = pyKey b := rfl

theorem blockEq_set_previous (x : Block) (hp : Option Hash) (b : Block) :
    blockEq x (Block.set_previous hp b) = blockEq x b := rfl

theorem set_previous_prev (hp : Option Hash) (b : Block) :
    (Block.set_previous hp b).hash_previous = hp := rfl

theorem falsyHash_hash_block (b : Block) :
    falsyHash (some (hash_block b)) = false := rfl

theorem mem_get_none (m : MemoryDictionary) : m.get none = none := rfl

theorem mem_get_hash_block (m : MemoryDictionary) (b : Block) :
    m.get (some (hash_block b)) = dictFind m.map (hash_block b) := rfl

theorem dictFind_of_nodup_mem :
    ∀ {l : List (Hash × Block)} {k : Hash} {b : Block},
      (l.map Prod.fst).Nodup → (k, b) ∈ l → dictFind l k = some b := by
  intro l
  induction l with
  | nil => intro k b _ h; cases h
  | cons p rest ih =>
      intro k b hnd hmem
      obtain ⟨k1, b1⟩ := p
      simp only [List.map_cons, List.nodup_cons, List.mem_map] at hnd
      rcases List.mem_cons.mp hmem with h | h
      · obtain ⟨rfl, rfl⟩ := Prod.mk.injEq .. |>.mp h.symm |>.imp Eq.symm Eq.symm
        simp [dictFind]
      · have hne : k1 ≠ k := by
          rintro rfl
          exact hnd.1 ⟨(k1, b), h, rfl⟩
        simpa [dictFind, hne] using ih hnd.2 h

theorem dictInsert_of_forall_ne :
    ∀ {l : List (Hash × Block)} {k : Hash} {b : Block},
      (∀ p ∈ l, p.1 ≠ k) → dictInsert l k b = l ++ [(k, b)] := by
  intro l
  induction l with
  | nil => intro k b _; rfl
  | cons p rest ih =>
      intro k b h
      obtain ⟨k1, b1⟩ := p
      have hne : k1 ≠ k := h (k1, b1) (List.mem_cons_self _ _)
      simp only [dictInsert, if_neg hne, List.cons_append, List.cons.injEq,
        true_and]
      exact ih (fun p hp => h p (List.mem_cons_of_mem _ hp))

/-! ### Structure of linked chains -/

theorem headHash_eq_none {s : List Block} : headHash s = none ↔ s = [] := by
  cases s <;> simp [headHash]

theorem Linked.suffix : ∀ {c s : List Block}, Linked c → s <:+ c → Linked s := by
  intro c
  induction c with
  | nil => intro s _ hs; rw [List.suffix_nil.mp hs]; trivial
  | cons a c ih =>
      intro s hl hs
      rcases List.suffix_cons_iff.mp hs with rfl | hs'
      · exact hl
      · exact ih hl.2 hs'

theorem linked_suffix_headHash_inj :
    ∀ (c : List Block), Linked c → ∀ s t : List Block, s <:+ c → t <:+ c →
      headHash s = headHash t → s = t
  | [], _, s, t, hs, ht, _ => by
      rw [List.suffix_nil.mp hs, List.suffix_nil.mp ht]
  | a :: c, hl, s, t, hs, ht, hh => by
      rcases List.suffix_cons_iff.mp hs with rfl | hs' <;>
        rcases List.suffix_cons_iff.mp ht with rfl | ht'
      · rfl
      · -- s is the whole chain, t a strict suffix
        match t, ht' with
        | [], _ => simp [headHash] at hh
        | b :: t', ht' =>
            simp only [headHash, Option.some.injEq] at hh
            have hab : a = b := hash_block_injective hh
            subst hab
            have hlt : Linked (a :: t') := Linked.suffix hl.2 ht'
            have hpq : headHash c = headHash t' := by
              rw [← hl.1, hlt.1]
            have ht'' : t' <:+ c :=
              (List.suffix_cons a t').trans ht'
            have := linked_suffix_headHash_inj c hl.2 c t' (List.suffix_refl c)
              ht'' hpq
            rw [this]
      · match s, hs' with
        | [], _ => simp [headHash] at hh
        | b :: s', hs' =>
            simp only [headHash, Option.some.injEq] at hh
            have hab : b = a := hash_block_injective hh
            subst hab
            have hls : Linked (b :: s') := Linked.suffix hl.2 hs'
            have hpq : headHash s' = headHash c := by
              rw [← hls.1, hl.1]
            have hs'' : s' <:+ c :=
              (List.suffix_cons b s').trans hs'
            have := linked_suffix_headHash_inj c hl.2 s' c hs''
              (List.suffix_refl c) hpq
            rw [this]
      · exact linked_suffix_headHash_inj c hl.2 s t hs' ht' hh

theorem Linked.nodup : ∀ {c : List Block}, Linked c → c.Nodup := by
  intro c
  induction c with
  | nil => intro _; exact List.nodup_nil
  | cons a c ih =>
      intro hl
      refine List.nodup_cons.mpr ⟨?_, ih hl.2⟩
      intro hmem
      obtain ⟨s, t, rfl⟩ := List.append_of_mem hmem
      have hsuf : (a :: t) <:+ (a :: (s ++ a :: t)) :=
        (List.suffix_append s (a :: t)).trans (List.suffix_cons a _)
      have := linked_suffix_headHash_inj _ hl (a :: (s ++ a :: t)) (a :: t)
        (List.suffix_refl _) hsuf rfl
      have hlen := congrArg List.length this
      simp at hlen
      omega

theorem blockEq_comm (a b : Block) : blockEq a b = blockEq b a := by
  rcases hab : blockEq a b with _ | _ <;> rcases hba : blockEq b a with _ | _
  · rfl
  · exact absurd ((blockEq_iff a b).mpr ((blockEq_iff b a).mp hba).symm)
      (by simp [hab])
  · exact absurd ((blockEq_iff b a).mpr ((blockEq_iff a b).mp hab).symm)
      (by simp [hba])
  · rfl

theorem chainEntries_cons (b : Block) (c : List Block) :
    chainEntries (b :: c) = chainEntries c ++ [(hash_block b, b)] := by
  simp [chainEntries]

theorem chainEntries_keys_nodup {c : List Block} (hl : Linked c) :
    ((chainEntries c).map Prod.fst).Nodup := by
  have : (chainEntries c).map Prod.fst = c.reverse.map hash_block := by
    simp [chainEntries, List.map_map]
  rw [this]
  exact (List.nodup_reverse.mpr hl.nodup).map hash_block_injective

theorem ChainInv.size_eq {m : MemoryDictionary} {c : List Block}
    (inv : ChainInv m c) : m.size = c.length := by
  simp [MemoryDictionary.size, inv.map_eq, chainEntries]

theorem ChainInv.get_headHash {m : MemoryDictionary} {c : List Block}
    (inv : ChainInv m c) {s : List Block} (hs : s <:+ c) :
    m.get (headHash s) = s.head? := by
  cases s with
  | nil => rfl
  | cons b t =>
      have hb : b ∈ c := hs.subset (List.mem_cons_self b t)
      have hmem : (hash_block b, b) ∈ chainEntries c := by
        simp only [chainEntries, List.mem_map, List.mem_reverse]
        exact ⟨b, hb, rfl⟩
      rw [headHash, mem_get_hash_block, inv.map_eq,
        dictFind_of_nodup_mem (chainEntries_keys_nodup inv.linked) hmem]
      rfl

theorem dupWalk_eq_any {m : MemoryDictionary} {c : List Block}
    (inv : ChainInv m c) (nb : Block) :
    ∀ s : List Block, s <:+ c → ∀ fuel : Nat, s.length < fuel →
      dupWalk m nb fuel (m.get (headHash s)) =
        s.any (fun x => blockEq x nb) := by
  intro s
  induction s with
  | nil =>
      intro _ fuel hf
      match fuel, hf with
      | f + 1, _ => rw [inv.get_headHash List.nil_suffix]; rfl
  | cons b t ih =>
      intro hs fuel hf
      match fuel, hf with
      | f + 1, hf =>
          rw [inv.get_headHash hs]
          have hlt : t <:+ c := ((List.suffix_cons b t).trans hs)
          have hlk : Linked (b :: t) := inv.linked.suffix hs
          show (if blockEq b nb then true
            else dupWalk m nb f (m.get b.hash_previous)) = _
          rw [hlk.1]
          rcases hbe : blockEq b nb with _ | _
          · have hrec := ih hlt f (by simp at hf ⊢; omega)
            simp [hbe, hrec]
          · simp [hbe]

theorem add_dup {m : MemoryDictionary} {c : List Block} (inv : ChainInv m c)
    {b : Block} {fuel : Nat} (hf : c.length < fuel)
    (hdup : ∃ x ∈ c, blockEq x b = true) :
    BlockChain.add m b fuel = (.error .duplicateBlock, m) := by
  have hw : dupWalk m (Block.set_previous m.head b) fuel
      (m.get m.head) = true := by
    have heq : m.head = headHash c := inv.head_eq
    rw [heq, dupWalk_eq_any inv _ c (List.suffix_refl c) fuel hf]
    obtain ⟨x, hx, hxe⟩ := hdup
    refine List.any_eq_true.mpr ⟨x, hx, ?_⟩
    rw [blockEq_set_previous]
    exact hxe
  simp [BlockChain.add, MemoryDictionary.get_head, hw]

theorem add_ok {m : MemoryDictionary} {c : List Block} (inv : ChainInv m c)
    {b : Block} {fuel : Nat} (hf : c.length < fuel)
    (hnod : ∀ x ∈ c, blockEq x b = false) :
    BlockChain.add m b fuel =
      (.ok (hash_block (Block.set_previous m.head b)),
       { map := chainEntries (Block.set_previous m.head b :: c),
         head := some (hash_block (Block.set_previous m.head b)) }) ∧
    ChainInv (BlockChain.add m b fuel).2
      (Block.set_previous m.head b :: c) := by
  have hw : dupWalk m (Block.set_previous m.head b) fuel
      (m.get m.head) = false := by
    have heq : m.head = headHash c := inv.head_eq
    rw [heq, dupWalk_eq_any inv _ c (List.suffix_refl c) fuel hf]
    refine List.any_eq_false.mpr ?_
    intro x hx
    rw [blockEq_set_previous]
    simp [hnod x hx]
  have hins : dictInsert m.map (hash_block (Block.set_previous m.head b))
      (Block.set_previous m.head b) =
      m.map ++ [(hash_block (Block.set_previous m.head b),
        Block.set_previous m.head b)] := by
    refine dictInsert_of_forall_ne ?_
    intro p hp
    rw [inv.map_eq] at hp
    simp only [chainEntries, List.mem_map, List.mem_reverse] at hp
    obtain ⟨x, hx, rfl⟩ := hp
    intro hkey
    have hxe : x = Block.set_previous m.head b := hash_block_injective hkey
    have : blockEq x b = true := by
      rw [hxe, blockEq_comm, blockEq_set_previous, blockEq_comm]
      exact blockEq_self b
    rw [hnod x hx] at this
    exact Bool.false_ne_true this
  have hadd : BlockChain.add m b fuel =
      (.ok (hash_block (Block.set_previous m.head b)),
       { map := chainEntries (Block.set_previous m.head b :: c),
         head := some (hash_block (Block.set_previous m.head b)) }) := by
    simp only [BlockChain.add, MemoryDictionary.get_head, hw,
      Bool.false_eq_true, if_false, MemoryDictionary.add,
      MemoryDictionary.update_head]
    rw [hins, chainEntries_cons, ← inv.map_eq]
  refine ⟨hadd, ?_⟩
  rw [hadd]
  exact ⟨rfl, rfl, by
    constructor
    · rw [set_previous_prev, inv.head_eq]
    · exact inv.linked⟩

theorem buildChain_append (bs : List Block) (b : Block) :
    buildChain (bs ++ [b]) =
      Block.set_previous (headHash (buildChain bs)) b :: buildChain bs := by
  simp [buildChain, List.foldl_append]

theorem built_inv : ∀ {m : MemoryDictionary} {bs : List Block},
    Built m bs → ChainInv m (buildChain bs) := by
  intro m bs h
  induction h with
  | nil => exact ⟨rfl, rfl, trivial⟩
  | @step m0 bs0 b k m1 _ hadd ih =>
      have hf : (buildChain bs0).length < m0.size + 1 := by
        rw [ih.size_eq]; omega
      by_cases hdup : ∃ x ∈ buildChain bs0, blockEq x b = true
      · exfalso
        rw [add_dup ih hf hdup] at hadd
        simp at hadd
      · have hnod : ∀ x ∈ buildChain bs0, blockEq x b = false := by
          intro x hx
          rcases hxe : blockEq x b with _ | _
          · rfl
          · exact absurd ⟨x, hx, hxe⟩ hdup
        have hok := add_ok ih hf hnod
        rw [hadd] at hok
        rw [buildChain_append, ← ih.head_eq]
        exact hok.2

/-! ### The collection walk, decomposed -/

/-- Specification-side collection scan over a list of blocks (newest
first): collect the blocks labelled `hashcode`, stopping once the number
collected equals the `index_all` of the block just collected. -/
def collectSpec (hashcode : Hash) : List Block → List Block → List Block
  | [], acc => acc
  | b :: rest, acc =>
      if b.hash = hashcode then
        if b.index_all = (acc ++ [b]).length then acc ++ [b]
        else collectSpec hashcode rest (acc ++ [b])
      else collectSpec hashcode rest acc

/-- Specification-side link-valid traversal: the blocks reachable from a
hash by following `hash_previous` while every fetched block re-hashes to
the key it was fetched under; it stops silently at the first invalid
link. -/
def validWalk (m : MemoryDictionary) : Nat → Option Hash → List Block
  | 0, _ => []
  | fuel + 1, h =>
      match m.get h with
      | none => []
      | some b =>
          if h = some (hash_block b) then b :: validWalk m fuel b.hash_previous
          else []

theorem validWalk_none (m : MemoryDictionary) (fuel : Nat) :
    validWalk m fuel none = [] := by
  cases fuel <;> rfl

theorem collectLoop_eq_spec (m : MemoryDictionary) (hashcode : Hash) :
    ∀ (fuel : Nat) (h : Option Hash) (acc : List Block),
      collectLoop m hashcode fuel h (m.get h) acc =
        collectSpec hashcode (validWalk m fuel h) acc := by
  intro fuel
  induction fuel with
  | zero => intro h acc; rfl
  | succ f ih =>
      intro h acc
      cases hg : m.get h with
      | none => simp [collectLoop, validWalk, hg, collectSpec]
      | some b =>
          by_cases hl : h = some (hash_block b)
          · have h1 : collectLoop m hashcode (f + 1) h (some b) acc =
                (if b.hash = hashcode then
                  if b.index_all = (acc ++ [b]).length then acc ++ [b]
                  else collectLoop m hashcode f b.hash_previous
                    (m.get b.hash_previous) (acc ++ [b])
                 else collectLoop m hashcode f b.hash_previous
                   (m.get b.hash_previous) acc) := by
              simp [collectLoop, hl]
            have h2 : validWalk m (f + 1) h =
                b :: validWalk m f b.hash_previous := by
              simp only [validWalk, hg]
              rw [if_pos hl]
            rw [h1, h2, collectSpec]
            by_cases hb : b.hash = hashcode <;>
              by_cases hi : b.index_all = (acc ++ [b]).length <;>
                simp [hb, hi, ih]
          · have h1 : collectLoop m hashcode (f + 1) h (some b) acc = acc := by
              simp [collectLoop, hl]
            have h2 : validWalk m (f + 1) h = [] := by
              simp [validWalk, hg, hl]
            rw [h1, h2, collectSpec]

theorem getBlocksForHash_eq (m : MemoryDictionary) (hashcode : Hash)
    (fuel : Nat) :
    getBlocksForHash m hashcode fuel =
      collectSpec hashcode (validWalk m fuel m.head) [] := by
  unfold getBlocksForHash
  rcases hh : m.get_head with _ | h
  · have : m.head = none := hh
    rw [this, validWalk_none]
    rfl
  · have hmh : m.head = some h := hh
    rw [hmh, ← collectLoop_eq_spec m hashcode fuel (some h) []]

theorem validWalk_inv {m : MemoryDictionary} {c : List Block}
    (inv : ChainInv m c) :
    ∀ s : List Block, s <:+ c → ∀ fuel : Nat, s.length < fuel →
      validWalk m fuel (headHash s) = s := by
  intro s
  induction s with
  | nil =>
      intro _ fuel hf
      exact validWalk_none m fuel
  | cons b t ih =>
      intro hs fuel hf
      match fuel, hf with
      | f + 1, hf =>
          have hget := inv.get_headHash hs
          have hlt : t <:+ c := ((List.suffix_cons b t).trans hs)
          have hlk : Linked (b :: t) := inv.linked.suffix hs
          rw [validWalk, hget]
          simp only [List.head?]
          rw [show headHash (b :: t) = some (hash_block b) from rfl,
            if_pos rfl, hlk.1, ih hlt f (by simp at hf ⊢; omega)]

theorem getBlocks_inv {m : MemoryDictionary} {c : List Block}
    (inv : ChainInv m c) {hashcode : Hash} {fuel : Nat}
    (hf : c.length < fuel) :
    getBlocksForHash m hashcode fuel = collectSpec hashcode c [] := by
  rw [getBlocksForHash_eq, inv.head_eq,
    validWalk_inv inv c (List.suffix_refl c) fuel hf]

theorem collectSpec_eq_filter (hashcode : Hash) :
    ∀ (c acc : List Block),
      (∀ b ∈ c, b.hash = hashcode →
        acc.length + (c.filter (fun x => x.hash = hashcode)).length
          ≤ b.index_all) →
      collectSpec hashcode c acc =
        acc ++ c.filter (fun x => x.hash = hashcode) := by
  intro c
  induction c with
  | nil => intro acc _; simp [collectSpec]
  | cons b rest ih =>
      intro acc hyp
      by_cases hb : b.hash = hashcode
      · have hfil : (b :: rest).filter (fun x => x.hash = hashcode) =
            b :: rest.filter (fun x => x.hash = hashcode) := by
          simp [List.filter_cons, hb]
        rw [collectSpec, if_pos hb, hfil]
        have h1 : (b :: rest.filter (fun x => x.hash = hashcode)).length
            = (rest.filter (fun x => x.hash = hashcode)).length + 1 := by
          simp
        have h2 : (acc ++ [b]).length = acc.length + 1 := by simp
        by_cases hi : b.index_all = (acc ++ [b]).length
        · rw [if_pos hi]
          have hb' := hyp b (List.mem_cons_self b rest) hb
          rw [hfil] at hb'
          have hfr : (rest.filter (fun x => x.hash = hashcode)).length = 0 := by
            omega
          rw [List.length_eq_zero.mp hfr]
        · rw [if_neg hi]
          have hside : ∀ x ∈ rest, x.hash = hashcode →
              (acc ++ [b]).length +
                (rest.filter (fun x => x.hash = hashcode)).length
                ≤ x.index_all := by
            intro x hx hxh
            have hh := hyp x (List.mem_cons_of_mem b hx) hxh
            rw [hfil] at hh
            omega
          rw [ih (acc ++ [b]) hside]
          simp
      · have hfil : (b :: rest).filter (fun x => x.hash = hashcode) =
            rest.filter (fun x => x.hash = hashcode) := by
          simp [List.filter_cons, hb]
        rw [collectSpec, if_neg hb, hfil]
        refine ih acc ?_
        intro x hx hxh
        have := hyp x (List.mem_cons_of_mem b hx) hxh
        rw [hfil] at this
        exact this

/-! ### The full-chain check walk -/

theorem setInsert_mem {s : List Hash} {h x : Hash} :
    x ∈ setInsert s h ↔ x ∈ s ∨ x = h := by
  by_cases hc : h ∈ s
  · simp only [setInsert, if_pos hc]
    constructor
    · exact Or.inl
    · rintro (hx | rfl)
      · exact hx
      · exact hc
  · simp [setInsert, if_neg hc]

theorem setInsert_nodup {s : List Hash} (hn : s.Nodup) (h : Hash) :
    (setInsert s h).Nodup := by
  by_cases hc : h ∈ s
  · simpa [setInsert, if_pos hc] using hn
  · simp [setInsert, if_neg hc, List.nodup_append, hn, hc]

theorem foldl_setInsert_mem :
    ∀ (l acc : List Hash) (x : Hash),
      x ∈ l.foldl setInsert acc ↔ x ∈ acc ∨ x ∈ l := by
  intro l
  induction l with
  | nil => intro acc x; simp
  | cons h t ih =>
      intro acc x
      rw [List.foldl_cons, ih]
      rw [setInsert_mem]
      simp only [List.mem_cons]
      tauto

theorem foldl_setInsert_nodup :
    ∀ (l acc : List Hash), acc.Nodup → (l.foldl setInsert acc).Nodup := by
  intro l
  induction l with
  | nil => intro acc h; exact h
  | cons h t ih => intro acc ha; exact ih _ (setInsert_nodup ha h)

theorem foldl_setInsert_length (l : List Hash) :
    (l.foldl setInsert []).length = l.dedup.length := by
  have hnd := foldl_setInsert_nodup l [] List.nodup_nil
  have hfin : (l.foldl setInsert []).toFinset = l.toFinset := by
    ext x
    simp [List.mem_toFinset, foldl_setInsert_mem]
  calc (l.foldl setInsert []).length
      = (l.foldl setInsert []).toFinset.card :=
        (List.toFinset_card_of_nodup hnd).symm
    _ = l.toFinset.card := by rw [hfin]
    _ = l.dedup.length := List.card_toFinset l

theorem checkLoop_inv {m : MemoryDictionary} {c : List Block}
    (inv : ChainInv m c) :
    ∀ s : List Block, s <:+ c → ∀ (acc : List Hash) (fuel : Nat),
      s.length < fuel →
      checkLoop m fuel (headHash s) (m.get (headHash s)) acc =
        (s.foldl (fun a x => setInsert a x.hash) acc, none, true) := by
  intro s
  induction s with
  | nil =>
      intro _ acc fuel hf
      match fuel, hf with
      | f + 1, _ => rw [inv.get_headHash List.nil_suffix]; rfl
  | cons b t ih =>
      intro hs acc fuel hf
      match fuel, hf with
      | f + 1, hf =>
          have hget := inv.get_headHash hs
          have hlt : t <:+ c := ((List.suffix_cons b t).trans hs)
          have hlk : Linked (b :: t) := inv.linked.suffix hs
          rw [hget]
          show checkLoop m (f + 1) (headHash (b :: t)) (some b) acc = _
          rw [checkLoop, show headHash (b :: t) = some (hash_block b) from rfl,
            if_neg (by simp), hlk.1,
            ih hlt (setInsert acc b.hash) f (by simp at hf ⊢; omega)]
          rfl

theorem check_inv {m : MemoryDictionary} {c : List Block}
    (inv : ChainInv m c) {fuel : Nat} (hf : c.length < fuel) :
    BlockChain.check m fuel =
      (((c.map Block.hash).foldl setInsert []).all
          (fun hc => (check_hash m hc fuel).1),
       ((c.map Block.hash).foldl setInsert []).length) := by
  unfold BlockChain.check
  cases c with
  | nil =>
      have h0 : m.get_head = none := inv.head_eq
      rw [h0]
      rfl
  | cons b t =>
      have hh : m.get_head = some (hash_block b) := inv.head_eq
      rw [hh]
      have hcl := checkLoop_inv inv (b :: t) (List.suffix_refl _) [] fuel hf
      rw [show headHash (b :: t) = some (hash_block b) from rfl] at hcl
      simp only [hcl, List.foldl_map]
      simp

/-! ### Sorting by ordinal -/

theorem sortOrd_perm (l : List Block) : List.Perm (sortOrd l) l :=
  List.mergeSort_perm l _

theorem sortOrd_sorted (l : List Block) :
    (sortOrd l).Pairwise (fun a b => a.ordinal ≤ b.ordinal) := by
  have htrans : ∀ a b c : Block,
      (fun a b : Block => decide (a.ordinal ≤ b.ordinal)) a b = true →
      (fun a b : Block => decide (a.ordinal ≤ b.ordinal)) b c = true →
      (fun a b : Block => decide (a.ordinal ≤ b.ordinal)) a c = true := by
    intro a b c hab hbc
    simp only [decide_eq_true_eq] at hab hbc ⊢
    omega
  have htotal : ∀ a b : Block,
      ((fun a b : Block => decide (a.ordinal ≤ b.ordinal)) a b ||
       (fun a b : Block => decide (a.ordinal ≤ b.ordinal)) b a) = true := by
    intro a b
    simp only [Bool.or_eq_true, decide_eq_true_eq]
    exact Nat.le_total a.ordinal b.ordinal
  have h := List.sorted_mergeSort htrans htotal l
  exact h.imp (fun hab => by simpa using hab)

/-- Specification-side insertion of a block into an ordinal-sorted list. -/
def insertOrd (b : Block) : List Block → List Block
  | [] => [b]
  | x :: xs =>
      if b.ordinal ≤ x.ordinal then b :: x :: xs else x :: insertOrd b xs

/-- Specification-side insertion sort by ordinal (to compare against the
sort used by the implementation). -/
def sortOrdSpec : List Block → List Block
  | [] => []
  | b :: l => insertOrd b (sortOrdSpec l)

theorem insertOrd_perm (b : Block) :
    ∀ l : List Block, List.Perm (insertOrd b l) (b :: l)
  | [] => List.Perm.refl _
  | x :: xs => by
      unfold insertOrd
      by_cases h : b.ordinal ≤ x.ordinal
      · rw [if_pos h]
      · rw [if_neg h]
        exact ((insertOrd_perm b xs).cons x).trans (List.Perm.swap b x xs)

theorem sortOrdSpec_perm : ∀ l : List Block, List.Perm (sortOrdSpec l) l
  | [] => List.Perm.refl _
  | b :: l =>
      (insertOrd_perm b (sortOrdSpec l)).trans ((sortOrdSpec_perm l).cons b)

theorem insertOrd_sorted (b : Block) :
    ∀ {l : List Block}, l.Pairwise (fun a c => a.ordinal ≤ c.ordinal) →
      (insertOrd b l).Pairwise (fun a c => a.ordinal ≤ c.ordinal) := by
  intro l
  induction l with
  | nil => intro _; simp [insertOrd]
  | cons x xs ih =>
      intro h
      unfold insertOrd
      by_cases hb : b.ordinal ≤ x.ordinal
      · rw [if_pos hb]
        refine List.Pairwise.cons ?_ h
        intro y hy
        rcases List.mem_cons.mp hy with rfl | hy'
        · exact hb
        · exact hb.trans ((List.pairwise_cons.mp h).1 y hy')
      · rw [if_neg hb]
        have hx : x.ordinal ≤ b.ordinal := by omega
        refine List.Pairwise.cons ?_ (ih (List.pairwise_cons.mp h).2)
        intro y hy
        have hmem := (insertOrd_perm b xs).mem_iff.mp hy
        rcases List.mem_cons.mp hmem with he | hy'
        · rw [he]; exact hx
        · exact (List.pairwise_cons.mp h).1 y hy'

theorem sortOrdSpec_sorted :
    ∀ l : List Block,
      (sortOrdSpec l).Pairwise (fun a c => a.ordinal ≤ c.ordinal)
  | [] => List.Pairwise.nil
  | b :: l => insertOrd_sorted b (sortOrdSpec_sorted l)

/-- Two sorted lists that are permutations of each other and have pairwise
distinct keys are equal. -/
theorem sorted_key_nodup_unique {α : Type} (key : α → Nat) :
    ∀ {l1 l2 : List α}, List.Perm l1 l2 →
      l1.Pairwise (fun a b => key a ≤ key b) →
      l2.Pairwise (fun a b => key a ≤ key b) →
      (l1.map key).Nodup → l1 = l2 := by
  intro l1
  induction l1 with
  | nil =>
      intro l2 hp _ _ _
      exact List.Perm.nil_eq hp
  | cons a t1 ih =>
      intro l2 hp hs1 hs2 hnd
      cases l2 with
      | nil => exact absurd hp (by simp)
      | cons b t2 =>
          have hab : a = b := by
            by_contra hne
            have hbmem : b ∈ a :: t1 := hp.symm.subset (List.mem_cons_self b t2)
            have hamem : a ∈ b :: t2 := hp.subset (List.mem_cons_self a t1)
            have hb1 : b ∈ t1 := by
              rcases List.mem_cons.mp hbmem with h | h
              · exact absurd h.symm hne
              · exact h
            have ha2 : a ∈ t2 := by
              rcases List.mem_cons.mp hamem with h | h
              · exact absurd h hne
              · exact h
            have h1 : key a ≤ key b := (List.pairwise_cons.mp hs1).1 b hb1
            have h2 : key b ≤ key a := (List.pairwise_cons.mp hs2).1 a ha2
            have hkey : key b = key a := by omega
            have hmem : key b ∈ t1.map key := List.mem_map_of_mem key hb1
            rw [hkey] at hmem
            exact (List.nodup_cons.mp (by simpa using hnd)).1 hmem
          subst hab
          have ht : List.Perm t1 t2 := hp.cons_inv
          have := ih ht (List.pairwise_cons.mp hs1).2
            (List.pairwise_cons.mp hs2).2
            (List.nodup_cons.mp (by simpa using hnd)).2
          rw [this]

/-- The implementation sort and the specification sort agree at the level
of the fields `Block.__eq__` compares, for any two lists with the same
multiset of such fields and distinct ordinals. -/
theorem map_pyKey_sortOrd_eq {l1 l2 : List Block}
    (hperm : List.Perm (l1.map pyKey) (l2.map pyKey))
    (hnd : (l1.map Block.ordinal).Nodup) :
    (sortOrd l1).map pyKey = (sortOrdSpec l2).map pyKey := by
  apply sorted_key_nodup_unique
    (fun t : Hash × Nat × Nat × Bytes × String => t.2.2.1)
  · exact ((sortOrd_perm l1).map pyKey).trans
      (hperm.trans ((sortOrdSpec_perm l2).map pyKey).symm)
  · exact (List.pairwise_map).mpr ((sortOrd_sorted l1).imp (fun hab => hab))
  · exact (List.pairwise_map).mpr
      ((sortOrdSpec_sorted l2).imp (fun hab => hab))
  · have he : ((sortOrd l1).map pyKey).map
        (fun t : Hash × Nat × Nat × Bytes × String => t.2.2.1) =
        (sortOrd l1).map Block.ordinal := by
      rw [List.map_map]; rfl
    rw [he]
    exact (((sortOrd_perm l1).map Block.ordinal).nodup_iff).mpr hnd

theorem map_chunk_of_map_pyKey {t1 t2 : List Block}
    (h : t1.map pyKey = t2.map pyKey) :
    t1.map Block.chunk = t2.map Block.chunk := by
  have e : ∀ t : List Block,
      t.map Block.chunk = (t.map pyKey).map
        (fun q : Hash × Nat × Nat × Bytes × String => q.2.2.2.1) := by
    intro t; rw [List.map_map]; rfl
  rw [e, e, h]

theorem dedup_length_eq_iff {l : List Nat} :
    l.dedup.length = l.length ↔ l.Nodup := by
  constructor
  · intro h
    have hsub : List.Sublist l.dedup l := List.dedup_sublist l
    have := hsub.eq_of_length h
    rw [← this]
    exact List.nodup_dedup l
  · intro h
    rw [List.dedup_eq_self.mpr h]

/-! ### Characterisation of generate_file_hash -/

/-- The raise condition of `generate_file_hash`, stated as the
specification does: the list is empty, two blocks share an ordinal, or two
blocks disagree on `file_hash`, `index_all`, or `filename`. -/
def SpecBad (blocks : List Block) : Prop :=
  blocks = [] ∨ ¬ (blocks.map Block.ordinal).Nodup ∨
  (∃ b1 ∈ blocks, ∃ b2 ∈ blocks,
    b1.hash ≠ b2.hash ∨ b1.index_all ≠ b2.index_all ∨
      b1.filename ≠ b2.filename)

instance (blocks : List Block) : Decidable (SpecBad blocks) := by
  unfold SpecBad
  infer_instance

theorem generate_file_hash_eq (blocks : List Block) :
    generate_file_hash blocks =
      if SpecBad blocks then .error .inconsistent
      else .ok (Hash.shaBytes
        (((sortOrdSpec blocks).map Block.chunk).flatten)) := by
  match blocks with
  | [] =>
      rw [if_pos (show SpecBad [] from Or.inl rfl)]
      rfl
  | b0 :: rest =>
      rw [generate_file_hash]
      by_cases hnd : ((b0 :: rest).map Block.ordinal).Nodup
      · rw [if_neg (by rw [dedup_length_eq_iff.mpr hnd, List.length_map]; simp)]
        by_cases hdis : (b0 :: rest).any (fun b =>
            !(b.hash == b0.hash && b.index_all == b0.index_all
              && b.filename == b0.filename)) = true
        · rw [if_pos hdis]
          have hbad : SpecBad (b0 :: rest) := by
            obtain ⟨b, hb, hbe⟩ := List.any_eq_true.mp hdis
            refine Or.inr (Or.inr ⟨b, hb, b0, List.mem_cons_self b0 rest, ?_⟩)
            by_contra hcon
            push_neg at hcon
            obtain ⟨e1, e2, e3⟩ := hcon
            simp [e1, e2, e3] at hbe
          rw [if_pos hbad]
        · rw [if_neg hdis]
          have hdisf : (b0 :: rest).any (fun b =>
              !(b.hash == b0.hash && b.index_all == b0.index_all
                && b.filename == b0.filename)) = false := by
            rcases hx : (b0 :: rest).any (fun b =>
                !(b.hash == b0.hash && b.index_all == b0.index_all
                  && b.filename == b0.filename)) with _ | _
            · rfl
            · exact absurd hx hdis
          have hgood : ¬ SpecBad (b0 :: rest) := by
            intro hbad
            rcases hbad with h | h | hpair
            · exact List.cons_ne_nil b0 rest h
            · exact h hnd
            · obtain ⟨b1, hb1, b2, hb2, hne⟩ := hpair
              have h1 := List.any_eq_false.mp hdisf b1 hb1
              have h2 := List.any_eq_false.mp hdisf b2 hb2
              simp only [Bool.not_eq_true, Bool.not_eq_false',
                Bool.and_eq_true, beq_iff_eq] at h1 h2
              rcases hne with h | h | h
              · exact h (h1.1.1.trans h2.1.1.symm)
              · exact h (h1.1.2.trans h2.1.2.symm)
              · exact h (h1.2.trans h2.2.symm)
          rw [if_neg hgood]
          have hchunks : (sortOrd (b0 :: rest)).map Block.chunk =
              (sortOrdSpec (b0 :: rest)).map Block.chunk :=
            map_chunk_of_map_pyKey
              (map_pyKey_sortOrd_eq (List.Perm.refl _) hnd)
          rw [hchunks]
      · have hcond : ((b0 :: rest).map Block.ordinal).dedup.length ≠
            (b0 :: rest).length := by
          intro he
          apply hnd
          apply dedup_length_eq_iff.mp
          rw [he, List.length_map]
        rw [if_pos hcond,
          if_pos (show SpecBad (b0 :: rest) from Or.inr (Or.inl hnd))]

/-! ### The package layer (package.py) -/

/-- The `PackageCreationError` of the exceptions module. -/
inductive PackageError where
  | creation
deriving DecidableEq

/-- The recognised package ids: the members of the `PackageId` enum of
package.py, namely `LOG_TEXT = 0x00`, `SEND_FILE = 0x01`,
`HASH_CHECK = 0x02`, `FILE_CHECK = 0x03` and `GET_FILE = 0x04`.  The enum
defines no other member. -/
def packagesIds : List Nat := [0x00, 0x01, 0x02, 0x03, 0x04]

/-- The `Package` class of package.py. -/
structure Package where
  package_mode : Nat
  package_id : Nat
  payload : Bytes
deriving DecidableEq

/-- Property `Package.raw`: the header byte (mode or-ed with the id) followed by
the payload bytes. -/
def Package.raw (p : Package) : Bytes :=
  (p.package_mode ||| p.package_id) :: p.payload

/-- The `PackageFactory` class of package.py; its `packages_ids` field is
always the set of `PackageId` members, so only the mode is state. -/
structure PackageFactory where
  package_mode : Nat
deriving DecidableEq

/-- Method `PackageFactory.create_from_bytes`: reject empty input, split off the
header byte, mask out the mode (bit 7) and the id (bits 0 to 6), and
reject an id that is not a `PackageId` member. -/
def create_from_bytes (_f : PackageFactory) (data : Bytes) :
    Except PackageError Package :=
  match data with
  | [] => .error .creation
  | header :: rest =>
      let package_mode := 0x80 &&& header
      let package_id := 0x7F &&& header
      if packagesIds.contains package_id then
        .ok ⟨package_mode, package_id, rest⟩
      else .error .creation

/-- Method `PackageFactory.create_from_object`, parameterised by the pickle
serializer `dump` for the payload type. -/
def create_from_object {α : Type} (f : PackageFactory) (dump : α → Bytes)
    (package_id : Nat) (data : α) : Except PackageError Package :=
  if packagesIds.contains package_id then
    .ok ⟨f.package_mode, package_id, dump data⟩
  else .error .creation

/-! ### load_file (data.py) -/

/-- Constant `CHUNK_SIZE` of data.py. -/
def CHUNK_SIZE : Nat := 500

/-- The chunking loop of `load_file`: read `CHUNK_SIZE` bytes at a time
until the file is exhausted; only the final chunk may be shorter. -/
def chunksOf : Bytes → List Bytes
  | [] => []
  | b :: rest =>
      ((b :: rest).take CHUNK_SIZE) :: chunksOf ((b :: rest).drop CHUNK_SIZE)
termination_by l => l.length
decreasing_by
  simp [CHUNK_SIZE]
  omega

/-- Function `load_file` of data.py: chunk the content, hash all chunks in order,
then build one block per chunk with its position as ordinal. -/
def load_file (content : Bytes) (filename : String) : List Block :=
  let chunks := chunksOf content
  let idx := chunks.length
  let hashcode := Hash.shaBytes chunks.flatten
  chunks.enum.map (fun oc =>
    { hash := hashcode, index_all := idx, ordinal := oc.1,
      chunk := oc.2, filename := filename, hash_previous := none })

/-! ### The on-disk store (FileDictionary of data.py) -/

/-- Model of the `FileDictionary` on-disk state under `<cwd>/.blockchain`:
the two-character subdirectory names created so far, the block files keyed
by their full hash string, and the `head` file.  The rendering of digests
as hex strings is a parameter `hex`; no property of it is used. -/
structure FileDictionary where
  dirs : List String
  files : List (String × Block)
  headFile : Option String
deriving DecidableEq

/-- A fresh `.blockchain` directory. -/
def emptyFileDict : FileDictionary := ⟨[], [], none⟩

/-- File-store insertion with overwrite semantics. -/
def fileInsert (l : List (String × Block)) (k : String) (b : Block) :
    List (String × Block) :=
  match l with
  | [] => [(k, b)]
  | (k1, b1) :: rest =>
      if k1 = k then (k1, b) :: rest else (k1, b1) :: fileInsert rest k b

/-- Method `FileDictionary.add`: create the directory named by the first two
characters of the hash if needed, and write the block to
`<root>/<hash[:2]>/<hash[2:]>`. -/
def FileDictionary.add (hex : Hash → String) (d : FileDictionary)
    (b : Block) : String × FileDictionary :=
  let hashcode := hex (hash_block b)
  let dir := hashcode.take 2
  let d1 := if d.dirs.contains dir then d
    else { d with dirs := d.dirs ++ [dir] }
  (hashcode, { d1 with files := fileInsert d1.files hashcode b })

/-- Method `FileDictionary.update_head`: write the hash into `<root>/head`. -/
def FileDictionary.update_head (d : FileDictionary) (h : String) :
    FileDictionary := { d with headFile := some h }

/-- Python `os.listdir(root)`: the two-character subdirectories plus the `head`
file when it exists. -/
def FileDictionary.listRoot (d : FileDictionary) : List String :=
  d.dirs ++ (match d.headFile with | some _ => ["head"] | none => [])

/-- Method `FileDictionary.size` of data.py, faithfully: it counts the entries of
`os.listdir(root)` whose bare NAME, resolved relative to the current
working directory rather than the store root, exists as a file
(`os.path.isfile(name)`).  `cwdFiles` lists the file names present in the
working directory. -/
def FileDictionary.size (cwdFiles : List String) (d : FileDictionary) :
    Nat :=
  (d.listRoot.filter (fun n => cwdFiles.contains n)).length

/-! ### Projections of built chains -/

theorem buildChain_pyKey_go :
    ∀ (bs c0 : List Block),
      (bs.foldl (fun c b => Block.set_previous (headHash c) b :: c) c0).map
          pyKey
        = (bs.map pyKey).reverse ++ c0.map pyKey := by
  intro bs
  induction bs with
  | nil => intro c0; simp
  | cons b t ih =>
      intro c0
      rw [List.foldl_cons, ih]
      simp [pyKey_set_previous]

theorem buildChain_pyKey (bs : List Block) :
    (buildChain bs).map pyKey = (bs.map pyKey).reverse := by
  have := buildChain_pyKey_go bs []
  simpa [buildChain] using this

theorem map_hash_eq_pyKey (l : List Block) :
    l.map Block.hash =
      (l.map pyKey).map (fun q : Hash × Nat × Nat × Bytes × String => q.1) := by
  rw [List.map_map]; rfl

theorem map_ordinal_eq_pyKey (l : List Block) :
    l.map Block.ordinal =
      (l.map pyKey).map
        (fun q : Hash × Nat × Nat × Bytes × String => q.2.2.1) := by
  rw [List.map_map]; rfl

theorem buildChain_hash (bs : List Block) :
    (buildChain bs).map Block.hash = (bs.map Block.hash).reverse := by
  rw [map_hash_eq_pyKey, buildChain_pyKey, List.map_reverse,
    ← map_hash_eq_pyKey]

theorem filter_hash_pyKey (H : Hash) (l : List Block) :
    (l.filter (fun x => x.hash = H)).map pyKey =
      (l.map pyKey).filter
        (fun q : Hash × Nat × Nat × Bytes × String => q.1 = H) := by
  rw [List.filter_map]
  rfl

theorem filter_buildChain_pyKey (bs : List Block) (H : Hash) :
    ((buildChain bs).filter (fun x => x.hash = H)).map pyKey =
      ((bs.filter (fun x => x.hash = H)).map pyKey).reverse := by
  rw [filter_hash_pyKey, buildChain_pyKey, List.filter_reverse,
    ← filter_hash_pyKey]

theorem mem_pyKey_transfer {l1 l2 : List Block}
    (h : l1.map pyKey = (l2.map pyKey).reverse) :
    ∀ b ∈ l1, ∃ b2 ∈ l2, pyKey b2 = pyKey b := by
  intro b hb
  have hm : pyKey b ∈ l1.map pyKey := List.mem_map_of_mem _ hb
  rw [h, List.mem_reverse] at hm
  obtain ⟨b2, hb2, he⟩ := List.mem_map.mp hm
  exact ⟨b2, hb2, he⟩

theorem dedup_length_reverse (l : List Hash) :
    l.reverse.dedup.length = l.dedup.length := by
  rw [← List.card_toFinset, ← List.card_toFinset, List.toFinset_reverse]

/-- Congruence for `sortOrdSpec`: two block lists with the same multiset of
compared fields and distinct ordinals have the same sorted projections. -/
theorem map_pyKey_sortSpec_congr {l1 l2 : List Block}
    (hperm : List.Perm (l1.map pyKey) (l2.map pyKey))
    (hnd : (l1.map Block.ordinal).Nodup) :
    (sortOrdSpec l1).map pyKey = (sortOrdSpec l2).map pyKey := by
  apply sorted_key_nodup_unique
    (fun t : Hash × Nat × Nat × Bytes × String => t.2.2.1)
  · exact ((sortOrdSpec_perm l1).map pyKey).trans
      (hperm.trans ((sortOrdSpec_perm l2).map pyKey).symm)
  · exact (List.pairwise_map).mpr
      ((sortOrdSpec_sorted l1).imp (fun hab => hab))
  · exact (List.pairwise_map).mpr
      ((sortOrdSpec_sorted l2).imp (fun hab => hab))
  · rw [← map_ordinal_eq_pyKey]
    exact (((sortOrdSpec_perm l1).map Block.ordinal).nodup_iff).mpr hnd

theorem sortOrdSpec_of_sorted :
    ∀ {l : List Block},
      l.Pairwise (fun a c => a.ordinal ≤ c.ordinal) → sortOrdSpec l = l
  | [], _ => rfl
  | b :: t, h => by
      rw [sortOrdSpec, sortOrdSpec_of_sorted (List.pairwise_cons.mp h).2]
      cases t with
      | nil => rfl
      | cons x xs =>
          have hb : b.ordinal ≤ x.ordinal :=
            (List.pairwise_cons.mp h).1 x (List.mem_cons_self x xs)
          simp [insertOrd, if_pos hb]

/-! ### Facts about chunking and load_file -/

theorem flatten_chunksOf : ∀ content : Bytes,
    (chunksOf content).flatten = content
  | [] => by rw [chunksOf]; rfl
  | b :: rest => by
      rw [chunksOf, List.flatten_cons,
        flatten_chunksOf ((b :: rest).drop CHUNK_SIZE),
        List.take_append_drop]
termination_by content => content.length
decreasing_by
  simp [CHUNK_SIZE]
  omega

theorem chunksOf_length_le : ∀ content : Bytes,
    ∀ ck ∈ chunksOf content, ck.length ≤ CHUNK_SIZE
  | [] => by intro ck h; rw [chunksOf] at h; cases h
  | b :: rest => by
      intro ck hck
      rw [chunksOf] at hck
      rcases List.mem_cons.mp hck with rfl | h
      · rw [List.length_take]
        exact inf_le_left
      · exact chunksOf_length_le ((b :: rest).drop CHUNK_SIZE) ck h
termination_by content => content.length
decreasing_by
  simp [CHUNK_SIZE]
  omega

theorem chunksOf_dropLast_full : ∀ content : Bytes,
    ∀ ck ∈ (chunksOf content).dropLast, ck.length = CHUNK_SIZE
  | [] => by intro ck h; rw [chunksOf] at h; cases h
  | b :: rest => by
      intro ck hck
      rw [chunksOf] at hck
      rcases hd : chunksOf ((b :: rest).drop CHUNK_SIZE) with _ | ⟨c2, cs⟩
      · rw [hd] at hck
        cases hck
      · rw [hd, List.dropLast_cons_of_ne_nil (by simp)] at hck
        rcases List.mem_cons.mp hck with rfl | h
        · have hlong : CHUNK_SIZE < (b :: rest).length := by
            by_contra hle
            push_neg at hle
            have : (b :: rest).drop CHUNK_SIZE = [] := by
              apply List.drop_eq_nil_of_le hle
            rw [this] at hd
            simp [chunksOf] at hd
          rw [List.length_take]
          omega
        · rw [← hd] at h
          exact chunksOf_dropLast_full ((b :: rest).drop CHUNK_SIZE) ck h
termination_by content => content.length
decreasing_by
  all_goals simp [CHUNK_SIZE]
  all_goals omega

theorem load_file_chunks (content : Bytes) (fn : String) :
    (load_file content fn).map Block.chunk = chunksOf content := by
  simp only [load_file, List.map_map]
  have : (Block.chunk ∘ fun oc : Nat × Bytes =>
      ({ hash := Hash.shaBytes (chunksOf content).flatten,
         index_all := (chunksOf content).length, ordinal := oc.1,
         chunk := oc.2, filename := fn, hash_previous := none } : Block)) =
      Prod.snd := rfl
  rw [this, List.enum_map_snd]

theorem load_file_ordinals (content : Bytes) (fn : String) :
    (load_file content fn).map Block.ordinal =
      List.range (chunksOf content).length := by
  simp only [load_file, List.map_map]
  have : (Block.ordinal ∘ fun oc : Nat × Bytes =>
      ({ hash := Hash.shaBytes (chunksOf content).flatten,
         index_all := (chunksOf content).length, ordinal := oc.1,
         chunk := oc.2, filename := fn, hash_previous := none } : Block)) =
      Prod.fst := rfl
  rw [this, List.enum_map_fst]

theorem load_file_sorted (content : Bytes) (fn : String) :
    (load_file content fn).Pairwise (fun a c => a.ordinal ≤ c.ordinal) := by
  have h := List.pairwise_lt_range (chunksOf content).length
  rw [← load_file_ordinals content fn] at h
  exact (List.pairwise_map.mp h).imp (fun hab => Nat.le_of_lt hab)

theorem load_file_ord_nodup (content : Bytes) (fn : String) :
    ((load_file content fn).map Block.ordinal).Nodup := by
  rw [load_file_ordinals]
  exact List.nodup_range _

/-! ### A consistent complete section validates -/

/-- A consistent complete section for `H` among the blocks `bs`: at least
one block is labelled `H`, those blocks have pairwise distinct ordinals,
each states the section size as its `index_all`, all agree on the
filename, and `H` is the digest of their chunks in ordinal order. -/
def SecGood (bs : List Block) (H : Hash) : Prop :=
  bs.filter (fun x => x.hash = H) ≠ [] ∧
  ((bs.filter (fun x => x.hash = H)).map Block.ordinal).Nodup ∧
  (∀ b ∈ bs.filter (fun x => x.hash = H),
    b.index_all = (bs.filter (fun x => x.hash = H)).length) ∧
  (∀ b1 ∈ bs.filter (fun x => x.hash = H),
    ∀ b2 ∈ bs.filter (fun x => x.hash = H), b1.filename = b2.filename) ∧
  H = Hash.shaBytes
    (((sortOrdSpec (bs.filter (fun x => x.hash = H))).map
      Block.chunk).flatten)

theorem check_hash_chain_good {m : MemoryDictionary} {c : List Block}
    (inv : ChainInv m c) {H : Hash} {fuel : Nat}
    (hf : c.length < fuel)
    (hne : c.filter (fun x => x.hash = H) ≠ [])
    (hnd : ((c.filter (fun x => x.hash = H)).map Block.ordinal).Nodup)
    (hidx : ∀ b ∈ c.filter (fun x => x.hash = H),
      b.index_all = (c.filter (fun x => x.hash = H)).length)
    (hfn : ∀ b1 ∈ c.filter (fun x => x.hash = H),
      ∀ b2 ∈ c.filter (fun x => x.hash = H), b1.filename = b2.filename)
    (hH : H = Hash.shaBytes
      (((sortOrdSpec (c.filter (fun x => x.hash = H))).map
        Block.chunk).flatten)) :
    check_hash m H fuel =
      (true, (c.filter (fun x => x.hash = H)).length) := by
  have hblocks : getBlocksForHash m H fuel =
      c.filter (fun x => x.hash = H) := by
    rw [getBlocks_inv inv hf]
    have hyp : ∀ b ∈ c, b.hash = H →
        ([] : List Block).length +
          (c.filter (fun x => x.hash = H)).length ≤ b.index_all := by
      intro b hb hbh
      have hmem : b ∈ c.filter (fun x => x.hash = H) :=
        List.mem_filter.mpr ⟨hb, by simp [hbh]⟩
      rw [hidx b hmem]
      simp
    have := collectSpec_eq_filter H c [] hyp
    simpa using this
  have hnotbad : ¬ SpecBad (c.filter (fun x => x.hash = H)) := by
    intro hbad
    rcases hbad with h | h | hpair
    · exact hne h
    · exact h hnd
    · obtain ⟨b1, hb1, b2, hb2, hneq⟩ := hpair
      have e1 : b1.hash = H := by
        have := (List.mem_filter.mp hb1).2
        simpa using this
      have e2 : b2.hash = H := by
        have := (List.mem_filter.mp hb2).2
        simpa using this
      rcases hneq with h | h | h
      · exact h (e1.trans e2.symm)
      · exact h ((hidx b1 hb1).trans (hidx b2 hb2).symm)
      · exact h (hfn b1 hb1 b2 hb2)
  simp only [check_hash, hblocks, generate_file_hash_eq, if_neg hnotbad]
  simp [← hH]

theorem check_hash_built_good {m : MemoryDictionary} {bs : List Block}
    (hB : Built m bs) {H : Hash} {fuel : Nat}
    (hf : (buildChain bs).length < fuel) (hg : SecGood bs H) :
    check_hash m H fuel =
      (true, (bs.filter (fun x => x.hash = H)).length) := by
  obtain ⟨hne, hnd, hidx, hfn, hH⟩ := hg
  have inv := built_inv hB
  have hkey := filter_buildChain_pyKey bs H
  have hlen : ((buildChain bs).filter (fun x => x.hash = H)).length =
      (bs.filter (fun x => x.hash = H)).length := by
    have := congrArg List.length hkey
    simpa using this
  have hne' : (buildChain bs).filter (fun x => x.hash = H) ≠ [] := by
    intro h
    apply hne
    apply List.length_eq_zero.mp
    rw [← hlen, h]
    rfl
  have hnd' : (((buildChain bs).filter (fun x => x.hash = H)).map
      Block.ordinal).Nodup := by
    rw [map_ordinal_eq_pyKey, hkey, List.map_reverse, List.nodup_reverse,
      ← map_ordinal_eq_pyKey]
    exact hnd
  have htr := mem_pyKey_transfer hkey
  have hidx' : ∀ b ∈ (buildChain bs).filter (fun x => x.hash = H),
      b.index_all =
        ((buildChain bs).filter (fun x => x.hash = H)).length := by
    intro b hb
    obtain ⟨b2, hb2, he⟩ := htr b hb
    have : b2.index_all = b.index_all :=
      congrArg (fun q : Hash × Nat × Nat × Bytes × String => q.2.1) he
    rw [← this, hidx b2 hb2, hlen]
  have hfn' : ∀ b1 ∈ (buildChain bs).filter (fun x => x.hash = H),
      ∀ b2 ∈ (buildChain bs).filter (fun x => x.hash = H),
        b1.filename = b2.filename := by
    intro b1 hb1 b2 hb2
    obtain ⟨a1, ha1, he1⟩ := htr b1 hb1
    obtain ⟨a2, ha2, he2⟩ := htr b2 hb2
    have e1 : a1.filename = b1.filename :=
      congrArg (fun q : Hash × Nat × Nat × Bytes × String => q.2.2.2.2) he1
    have e2 : a2.filename = b2.filename :=
      congrArg (fun q : Hash × Nat × Nat × Bytes × String => q.2.2.2.2) he2
    rw [← e1, ← e2]
    exact hfn a1 ha1 a2 ha2
  have hchunks : (sortOrdSpec
      ((buildChain bs).filter (fun x => x.hash = H))).map Block.chunk =
      (sortOrdSpec (bs.filter (fun x => x.hash = H))).map Block.chunk := by
    apply map_chunk_of_map_pyKey
    apply map_pyKey_sortSpec_congr ?_ hnd'
    rw [hkey]
    exact (List.reverse_perm _)
  have hH' : H = Hash.shaBytes
      (((sortOrdSpec ((buildChain bs).filter (fun x => x.hash = H))).map
        Block.chunk).flatten) := by
    rw [hchunks]
    exact hH
  rw [check_hash_chain_good inv hf hne' hnd' hidx' hfn' hH', hlen]

theorem dictFind_dictInsert_self :
    ∀ (l : List (Hash × Block)) (k : Hash) (b : Block),
      dictFind (dictInsert l k b) k = some b := by
  intro l
  induction l with
  | nil => intro k b; simp [dictInsert, dictFind]
  | cons p rest ih =>
      intro k b
      obtain ⟨k1, b1⟩ := p
      by_cases h : k1 = k
      · simp [dictInsert, dictFind, h]
      · simp [dictInsert, dictFind, h, ih]

/-! ### Claim theorems -/

/-- C4: after every completed `BlockChain.add`, the head pointer equals
the returned hash, the block stored under that hash equals the input
block under the equality that ignores `hash_previous`, its `hash_block`
is the new head, and its `hash_previous` is the head current when the add
began (the sentinel `none` on an empty chain). -/
theorem c4_add_postcondition (m : MemoryDictionary) (b : Block)
    (fuel : Nat) (k : Hash) (m1 : MemoryDictionary)
    (h : BlockChain.add m b fuel = (.ok k, m1)) :
    m1.head = some k ∧
    m1.get (some k) = some (Block.set_previous m.head b) ∧
    blockEq (Block.set_previous m.head b) b = true ∧
    hash_block (Block.set_previous m.head b) = k ∧
    (Block.set_previous m.head b).hash_previous = m.head := by
  rcases hw : dupWalk m (Block.set_previous m.head b) fuel
      (m.get m.head) with _ | _
  · simp only [BlockChain.add, MemoryDictionary.get_head, hw,
      Bool.false_eq_true, if_false, MemoryDictionary.add,
      MemoryDictionary.update_head] at h
    rw [Prod.mk.injEq] at h
    obtain ⟨hk, hm⟩ := h
    have hk' : hash_block (Block.set_previous m.head b) = k := by
      injection hk
    subst hm
    refine ⟨?_, ?_, (blockEq_iff _ _).mpr (pyKey_set_previous _ _), hk', rfl⟩
    · show some (hash_block (Block.set_previous m.head b)) = some k
      rw [hk']
    · rw [← hk', mem_get_hash_block]
      exact dictFind_dictInsert_self m.map _ _
  · exfalso
    simp [BlockChain.add, MemoryDictionary.get_head, hw] at h

/-- Concrete block used by the C4 witness. -/
def c4block : Block :=
  { hash := Hash.raw "h", index_all := 1, ordinal := 0, chunk := [1],
    filename := "f" }

theorem c4_witness :
    (BlockChain.add emptyMem c4block 1).2.head =
        some (hash_block (Block.set_previous emptyMem.head c4block)) ∧
    (BlockChain.add emptyMem c4block 1).2.get
        (some (hash_block (Block.set_previous emptyMem.head c4block))) =
      some (Block.set_previous emptyMem.head c4block) ∧
    blockEq (Block.set_previous emptyMem.head c4block) c4block = true ∧
    hash_block (Block.set_previous emptyMem.head c4block) =
      hash_block (Block.set_previous emptyMem.head c4block) ∧
    (Block.set_previous emptyMem.head c4block).hash_previous =
      emptyMem.head :=
  c4_add_postcondition emptyMem c4block 1
    (hash_block (Block.set_previous emptyMem.head c4block))
    (BlockChain.add emptyMem c4block 1).2 (by rfl)

/-- C2: on any chain state reached by successful adds, adding a block
already present in the chain under the equality that ignores
`hash_previous` raises `DuplicateBlockError` and leaves the state, in
particular `size()` and the head pointer, unchanged: nothing is written. -/
theorem c2_duplicate_add (m : MemoryDictionary) (bs : List Block)
    (b : Block) (fuel : Nat) (hB : Built m bs) (hfuel : m.size < fuel)
    (hdup : ∃ x ∈ bs, blockEq x b = true) :
    BlockChain.add m b fuel = (.error .duplicateBlock, m) ∧
    (BlockChain.add m b fuel).2.size = m.size ∧
    (BlockChain.add m b fuel).2.head = m.head := by
  have inv := built_inv hB
  have hf : (buildChain bs).length < fuel := by
    rw [← inv.size_eq]; exact hfuel
  have hdup' : ∃ x ∈ buildChain bs, blockEq x b = true := by
    obtain ⟨x, hx, he⟩ := hdup
    have hmem : pyKey x ∈ (buildChain bs).map pyKey := by
      rw [buildChain_pyKey, List.mem_reverse]
      exact List.mem_map_of_mem _ hx
    obtain ⟨y, hy, hye⟩ := List.mem_map.mp hmem
    exact ⟨y, hy, (blockEq_iff _ _).mpr
      (hye.trans ((blockEq_iff _ _).mp he))⟩
  have hres := add_dup inv hf hdup'
  exact ⟨hres, by rw [hres], by rw [hres]⟩

/-- Concrete block used by the C2 witness. -/
def c2block : Block :=
  { hash := Hash.raw "w", index_all := 1, ordinal := 0, chunk := [2],
    filename := "f" }

/-- The state after adding `c2block` once to a fresh chain. -/
def c2state : MemoryDictionary := (BlockChain.add emptyMem c2block 1).2

theorem c2_witness :
    BlockChain.add c2state c2block 2 = (.error .duplicateBlock, c2state) ∧
    (BlockChain.add c2state c2block 2).2.size = c2state.size ∧
    (BlockChain.add c2state c2block 2).2.head = c2state.head :=
  c2_duplicate_add c2state [c2block] c2block 2
    (@Built.step emptyMem [] c2block
      (hash_block (Block.set_previous none c2block)) c2state
      Built.nil (by rfl)) (by decide) (by decide)

/-- C8 (code bug): the `PackageId` enum recognises exactly the ids 0x00 to
0x04; `FULL_CHECK = 0x05` is not a member, although web.py installs a
handler for `PackageId.FULL_CHECK` and the client sends it.  A header byte
with kind bits 0x05 therefore raises `PackageCreationError` in
`create_from_bytes` instead of yielding a package. -/
theorem c8_full_check_unrecognised :
    packagesIds = [0x00, 0x01, 0x02, 0x03, 0x04] ∧
    ((0x05 : Nat) ∈ packagesIds → False) ∧
    create_from_bytes ⟨0x80⟩ [0x05] = .error .creation ∧
    create_from_bytes ⟨0x80⟩ [0x85] = .error .creation := by
  refine ⟨rfl, by decide, by rfl, by rfl⟩

/-- Concrete block used by the C9 failing-input evaluation. -/
def c9block : Block :=
  { hash := Hash.raw "n", index_all := 1, ordinal := 0, chunk := [3],
    filename := "f" }

/-- C9 (code bug in the file store): after one successful add on a fresh
`FileDictionary` (head updated as `BlockChain.add` would), exactly one
block file is stored, yet `size()` returns 0 for a working directory that
contains no entry named like a listed name, because its `isfile` test
resolves the bare names from `os.listdir(root)` against the working
directory; the in-memory store returns 1 on the same input.  This holds
for every hex rendering of hashes. -/
theorem c9_file_size_bug :
    ∀ hex : Hash → String,
      ((FileDictionary.update_head
          (FileDictionary.add hex emptyFileDict c9block).2
          (FileDictionary.add hex emptyFileDict c9block).1).files.length
        = 1) ∧
      (FileDictionary.size []
        (FileDictionary.update_head
          (FileDictionary.add hex emptyFileDict c9block).2
          (FileDictionary.add hex emptyFileDict c9block).1) = 0) ∧
      (MemoryDictionary.add emptyMem c9block).2.size = 1 := by
  intro hex
  refine ⟨rfl, ?_, rfl⟩
  show ((((FileDictionary.add hex emptyFileDict c9block).2.dirs ++ ["head"])
    ).filter (fun n => ([] : List String).contains n)).length = 0
  rw [List.filter_eq_nil_iff.mpr (by intro a _; simp)]
  rfl

theorem hashBeq_eq_decide (x y : Hash) : (x == y) = decide (x = y) := by
  by_cases hxy : x = y <;> simp [hxy]

/-- C7: for every recognised kind and every payload object, reparsing a
factory-built package round-trips: `create_from_bytes` on the raw bytes of
`create_from_object k obj` yields a package with kind `k`, the factory
direction, and a payload that deserializes back to `obj` (for any
serializer with a left inverse, standing for pickle). -/
theorem c7_roundtrip {α : Type} (f : PackageFactory)
    (hmode : f.package_mode = 0x80 ∨ f.package_mode = 0x00)
    (k : Nat) (hk : k ∈ packagesIds)
    (dump : α → Bytes) (load : Bytes → Option α)
    (hinv : ∀ a, load (dump a) = some a) (obj : α) :
    ∃ p q : Package,
      create_from_object f dump k obj = .ok p ∧
      create_from_bytes f p.raw = .ok q ∧
      q.package_id = k ∧ q.package_mode = f.package_mode ∧
      load q.payload = some obj := by
  have hkc : k = 0 ∨ k = 1 ∨ k = 2 ∨ k = 3 ∨ k = 4 := by
    simpa [packagesIds] using hk
  have hid : 0x7F &&& (f.package_mode ||| k) = k := by
    rcases hmode with hm | hm <;> rw [hm] <;>
      rcases hkc with rfl | rfl | rfl | rfl | rfl <;> decide
  have hmo : 0x80 &&& (f.package_mode ||| k) = f.package_mode := by
    rcases hmode with hm | hm <;> rw [hm] <;>
      rcases hkc with rfl | rfl | rfl | rfl | rfl <;> decide
  have hcont : packagesIds.contains k = true := by
    rcases hkc with rfl | rfl | rfl | rfl | rfl <;> decide
  refine ⟨⟨f.package_mode, k, dump obj⟩, ⟨f.package_mode, k, dump obj⟩,
    ?_, ?_, rfl, rfl, hinv obj⟩
  · rcases hkc with rfl | rfl | rfl | rfl | rfl <;> rfl
  · show create_from_bytes f ((f.package_mode ||| k) :: dump obj) = _
    simp only [create_from_bytes, hid, hmo, hcont, if_true]

theorem c7_witness :
    ∃ p q : Package,
      create_from_object ⟨0x80⟩ (fun a : Bytes => a) 2 [9] = .ok p ∧
      create_from_bytes ⟨0x80⟩ p.raw = .ok q ∧
      q.package_id = 2 ∧
      q.package_mode = (⟨0x80⟩ : PackageFactory).package_mode ∧
      some q.payload = some ([9] : Bytes) :=
  c7_roundtrip ⟨0x80⟩ (Or.inl rfl) 2 (by decide) (fun a => a) some
    (fun _ => rfl) [9]

/-- C6: `generate_file_hash` raises the section-inconsistency error
exactly when the block list is empty, two blocks share an ordinal, or two
blocks disagree on `file_hash`, `index_all`, or `filename`; otherwise it
returns the SHA-256 digest of the chunks taken in ordinal order. -/
theorem c6_generate_file_hash (blocks : List Block) :
    generate_file_hash blocks =
      if SpecBad blocks then .error .inconsistent
      else .ok (Hash.shaBytes
        (((sortOrdSpec blocks).map Block.chunk).flatten)) :=
  generate_file_hash_eq blocks

/-- Concrete block used by the C3 counterexample: a single block whose
`file_hash` label is not the digest of its chunk. -/
def c3block : Block :=
  { hash := Hash.raw "zz", index_all := 1, ordinal := 0, chunk := [120],
    filename := "f" }

/-- The state after adding `c3block` once to a fresh chain. -/
def c3state : MemoryDictionary := (BlockChain.add emptyMem c3block 1).2

/-- C3 counterexample: the collected blocks validate as a section (they
are non-empty, with a unique ordinal and consistent metadata) but the
recomputed SHA-256 differs from the queried hash, and `check_hash`
returns `(false, 1)`, not the claimed `(false, 0)`. -/
theorem c3_counterexample :
    (BlockChain.add emptyMem c3block 1).1 =
      .ok (hash_block (Block.set_previous none c3block)) ∧
    ¬ SpecBad (getBlocksForHash c3state (Hash.raw "zz") 2) ∧
    generate_file_hash (getBlocksForHash c3state (Hash.raw "zz") 2) =
      .ok (Hash.shaBytes [120]) ∧
    Hash.shaBytes [120] ≠ Hash.raw "zz" ∧
    check_hash c3state (Hash.raw "zz") 2 = (false, 1) := by
  refine ⟨by rfl, by decide, ?_, by decide, by decide⟩
  rw [generate_file_hash_eq,
    if_neg (show ¬ SpecBad (getBlocksForHash c3state (Hash.raw "zz") 2)
      by decide)]
  exact congrArg Except.ok (by decide)

/-- C3 amended: `check_hash` returns `(false, 0)` exactly when the
collected blocks fail section validation; when they validate it returns
the digest comparison paired with the collected count: `(true, count)`
if the recomputed digest equals the queried hash and `(false, count)`
otherwise. -/
theorem c3_check_hash_amended (m : MemoryDictionary) (hc : Hash)
    (fuel : Nat) :
    check_hash m hc fuel =
      (if SpecBad (getBlocksForHash m hc fuel) then (false, 0)
       else (decide (Hash.shaBytes
          (((sortOrdSpec (getBlocksForHash m hc fuel)).map
            Block.chunk).flatten) = hc),
         (getBlocksForHash m hc fuel).length)) := by
  by_cases hbad : SpecBad (getBlocksForHash m hc fuel)
  · simp only [check_hash, generate_file_hash_eq, if_pos hbad]
  · simp only [check_hash, generate_file_hash_eq, if_neg hbad]
    rw [hashBeq_eq_decide]

/-- A block stored, in the C10 counterexample, under a key it does not
hash to (a corrupted entry). -/
def c10bad : Block :=
  { hash := Hash.raw "a", index_all := 1, ordinal := 0, chunk := [],
    filename := "g" }

/-- The head block of the C10 counterexample: it matches the queried file
hash, declares `index_all = 2` so the walk continues past it, and links
to the corrupted entry. -/
def c10top : Block :=
  { hash := Hash.shaBytes [7], index_all := 2, ordinal := 0, chunk := [7],
    filename := "f", hash_previous := some (Hash.raw "k") }

/-- A corrupted store: the head links to `c10top`, whose `hash_previous`
names a key holding a block that does not re-hash to it. -/
def c10state : MemoryDictionary :=
  { map := [(hash_block c10top, c10top), (Hash.raw "k", c10bad)],
    head := some (hash_block c10top) }

/-- C10 counterexample: the walk reaches a block failing the link
re-check (it is fetched, and its recomputed hash differs from its key),
stops there, and the blocks collected before it happen to validate
against the queried hash, so `check_hash` returns `(true, 1)` and not
`(false, _)` as claimed. -/
theorem c10_counterexample :
    c10state.get (some (Hash.raw "k")) = some c10bad ∧
    hash_block c10bad ≠ Hash.raw "k" ∧
    c10top.hash_previous = some (Hash.raw "k") ∧
    c10top.index_all ≠ 1 ∧
    getBlocksForHash c10state (Hash.shaBytes [7]) 3 = [c10top] ∧
    (check_hash c10state (Hash.shaBytes [7]) 3).1 = true ∧
    check_hash c10state (Hash.shaBytes [7]) 3 = (true, 1) := by
  have hch : check_hash c10state (Hash.shaBytes [7]) 3 = (true, 1) := by
    have hblocks : getBlocksForHash c10state (Hash.shaBytes [7]) 3 =
        [c10top] := by decide
    have hgen : generate_file_hash [c10top] = .ok (Hash.shaBytes [7]) := by
      rw [generate_file_hash_eq, if_neg (show ¬ SpecBad [c10top] by decide)]
      exact congrArg Except.ok (by decide)
    simp only [check_hash, hblocks, hgen]
    decide
  refine ⟨by decide, by decide, by decide, by decide, by decide,
    by rw [hch], hch⟩

/-- C10 amended: for every store state and hashcode, the shared walk is
the pure collection scan over the link-valid reachable sequence, which
stops silently at the first block failing the re-hash; `get` sorts that
collection, and `check_hash` validates it without raising, returning
`(false, 0)` only on failed validation and otherwise the digest
comparison with the collected count, which may be `(true, count)` when
the prefix before the invalid link validates against the hashcode. -/
theorem c10_walk_decomposition (m : MemoryDictionary) (hc : Hash)
    (fuel : Nat) :
    getBlocksForHash m hc fuel =
      collectSpec hc (validWalk m fuel m.head) [] ∧
    BlockChain.get m hc fuel =
      sortOrd (collectSpec hc (validWalk m fuel m.head) []) ∧
    check_hash m hc fuel =
      (if SpecBad (collectSpec hc (validWalk m fuel m.head) []) then
        (false, 0)
       else (decide (Hash.shaBytes
          (((sortOrdSpec (collectSpec hc (validWalk m fuel m.head) [])).map
            Block.chunk).flatten) = hc),
         (collectSpec hc (validWalk m fuel m.head) []).length)) := by
  have h1 := getBlocksForHash_eq m hc fuel
  refine ⟨h1, ?_, ?_⟩
  · show sortOrd (getBlocksForHash m hc fuel) = _
    rw [h1]
  · by_cases hbad : SpecBad (collectSpec hc (validWalk m fuel m.head) [])
    · simp only [check_hash, h1, generate_file_hash_eq, if_pos hbad]
    · simp only [check_hash, h1, generate_file_hash_eq, if_neg hbad]
      rw [hashBeq_eq_decide]

theorem load_file_length (content : Bytes) (fn : String) :
    (load_file content fn).length = (chunksOf content).length := by
  simp [load_file]

theorem load_file_index_all (content : Bytes) (fn : String) :
    ∀ b ∈ load_file content fn,
      b.index_all = (load_file content fn).length := by
  intro b hb
  rw [load_file_length]
  obtain ⟨oc, _, rfl⟩ := List.mem_map.mp hb
  rfl

/-- C5: for a file loaded into blocks (chunks of at most `CHUNK_SIZE`
bytes, all but the last exactly `CHUNK_SIZE`), all of which were added to
the chain and which are exactly the added blocks carrying the file hash,
`get` returns exactly those blocks sorted by ordinal, the digest of the
concatenation of the returned chunks is the file hash, and an absent hash
yields the empty list. -/
theorem c5_get_file (m : MemoryDictionary) (bs : List Block)
    (content : Bytes) (fn : String) (fuel : Nat)
    (hB : Built m bs) (hfuel : m.size < fuel)
    (hfile : List.Perm
      (bs.filter (fun x => x.hash = Hash.shaBytes content))
      (load_file content fn)) :
    ((BlockChain.get m (Hash.shaBytes content) fuel).map pyKey =
        (load_file content fn).map pyKey ∧
      Hash.shaBytes (((BlockChain.get m (Hash.shaBytes content) fuel).map
        Block.chunk).flatten) = Hash.shaBytes content) ∧
    ((load_file content fn).map Block.chunk = chunksOf content ∧
      (∀ ck ∈ chunksOf content, ck.length ≤ CHUNK_SIZE) ∧
      (∀ ck ∈ (chunksOf content).dropLast, ck.length = CHUNK_SIZE)) ∧
    (∀ H2 : Hash, (∀ b ∈ bs, b.hash ≠ H2) →
      BlockChain.get m H2 fuel = []) := by
  have inv := built_inv hB
  have hf : (buildChain bs).length < fuel := by
    rw [← inv.size_eq]; exact hfuel
  have hkey := filter_buildChain_pyKey bs (Hash.shaBytes content)
  have hlenfc : ((buildChain bs).filter
      (fun x => x.hash = Hash.shaBytes content)).length =
      (bs.filter (fun x => x.hash = Hash.shaBytes content)).length := by
    have := congrArg List.length hkey
    simpa using this
  have hlenfb : (bs.filter
      (fun x => x.hash = Hash.shaBytes content)).length =
      (load_file content fn).length := hfile.length_eq
  have hidx_fb : ∀ b ∈ bs.filter (fun x => x.hash = Hash.shaBytes content),
      b.index_all =
        (bs.filter (fun x => x.hash = Hash.shaBytes content)).length := by
    intro b hb
    have hbl : b ∈ load_file content fn := hfile.subset hb
    rw [load_file_index_all content fn b hbl, hlenfb]
  have htr := mem_pyKey_transfer hkey
  have hidx_c : ∀ b ∈ buildChain bs, b.hash = Hash.shaBytes content →
      ([] : List Block).length + ((buildChain bs).filter
        (fun x => x.hash = Hash.shaBytes content)).length ≤ b.index_all := by
    intro b hb hbh
    have hmem : b ∈ (buildChain bs).filter
        (fun x => x.hash = Hash.shaBytes content) :=
      List.mem_filter.mpr ⟨hb, by simp [hbh]⟩
    obtain ⟨b2, hb2, he⟩ := htr b hmem
    have hie : b2.index_all = b.index_all :=
      congrArg (fun q : Hash × Nat × Nat × Bytes × String => q.2.1) he
    rw [← hie, hidx_fb b2 hb2, hlenfc]
    simp
  have hblocks : getBlocksForHash m (Hash.shaBytes content) fuel =
      (buildChain bs).filter (fun x => x.hash = Hash.shaBytes content) := by
    rw [getBlocks_inv inv hf]
    have := collectSpec_eq_filter (Hash.shaBytes content) (buildChain bs)
      [] hidx_c
    simpa using this
  have hndfb : ((bs.filter (fun x => x.hash = Hash.shaBytes content)).map
      Block.ordinal).Nodup := by
    rw [(hfile.map Block.ordinal).nodup_iff]
    exact load_file_ord_nodup content fn
  have hndfc : (((buildChain bs).filter
      (fun x => x.hash = Hash.shaBytes content)).map Block.ordinal).Nodup := by
    rw [map_ordinal_eq_pyKey, hkey, List.map_reverse, List.nodup_reverse,
      ← map_ordinal_eq_pyKey]
    exact hndfb
  have hperm : List.Perm
      (((buildChain bs).filter
        (fun x => x.hash = Hash.shaBytes content)).map pyKey)
      ((load_file content fn).map pyKey) := by
    rw [hkey]
    exact (List.reverse_perm _).trans (hfile.map pyKey)
  have hmain : (BlockChain.get m (Hash.shaBytes content) fuel).map pyKey =
      (load_file content fn).map pyKey := by
    show (sortOrd (getBlocksForHash m (Hash.shaBytes content) fuel)).map
      pyKey = _
    rw [hblocks, map_pyKey_sortOrd_eq hperm hndfc,
      sortOrdSpec_of_sorted (load_file_sorted content fn)]
  refine ⟨⟨hmain, ?_⟩, ⟨load_file_chunks content fn,
    chunksOf_length_le content, chunksOf_dropLast_full content⟩, ?_⟩
  · rw [map_chunk_of_map_pyKey hmain, load_file_chunks,
      flatten_chunksOf]
  · intro H2 hno
    have hfb2 : bs.filter (fun x => x.hash = H2) = [] := by
      rw [List.filter_eq_nil_iff]
      intro a ha
      simp [hno a ha]
    have hfc2 : (buildChain bs).filter (fun x => x.hash = H2) = [] := by
      have h2 := filter_buildChain_pyKey bs H2
      rw [hfb2] at h2
      simp only [List.map_nil, List.reverse_nil] at h2
      exact List.map_eq_nil_iff.mp h2
    have hblocks2 : getBlocksForHash m H2 fuel = [] := by
      rw [getBlocks_inv inv hf]
      have hvac : ∀ b ∈ buildChain bs, b.hash = H2 →
          ([] : List Block).length + ((buildChain bs).filter
            (fun x => x.hash = H2)).length ≤ b.index_all := by
        intro b hb hbh
        exfalso
        have : b ∈ (buildChain bs).filter (fun x => x.hash = H2) :=
          List.mem_filter.mpr ⟨hb, by simp [hbh]⟩
        rw [hfc2] at this
        cases this
      have := collectSpec_eq_filter H2 (buildChain bs) [] hvac
      rw [hfc2] at this
      simpa using this
    show sortOrd (getBlocksForHash m H2 fuel) = []
    rw [hblocks2]
    exact (sortOrd_perm []).eq_nil

/-- The single block of the two-byte file `[1, 2]` used by the C5
witness. -/
def c5block : Block :=
  { hash := Hash.shaBytes [1, 2], index_all := 1, ordinal := 0,
    chunk := [1, 2], filename := "f" }

/-- The state after adding `c5block` once to a fresh chain. -/
def c5state : MemoryDictionary := (BlockChain.add emptyMem c5block 1).2

theorem c5_chunks_eval : chunksOf [1, 2] = [[1, 2]] := by
  rw [chunksOf]
  rw [show List.take CHUNK_SIZE ([1, 2] : Bytes) = [1, 2] from by decide]
  rw [show List.drop CHUNK_SIZE ([1, 2] : Bytes) = [] from by decide]
  rw [chunksOf]

theorem c5_load_eval : load_file [1, 2] "f" = [c5block] := by
  simp only [load_file, c5_chunks_eval]
  decide

theorem c5_witness :
    ((BlockChain.get c5state (Hash.shaBytes [1, 2]) 2).map pyKey =
        (load_file [1, 2] "f").map pyKey ∧
      Hash.shaBytes (((BlockChain.get c5state (Hash.shaBytes [1, 2]) 2).map
        Block.chunk).flatten) = Hash.shaBytes [1, 2]) ∧
    ((load_file [1, 2] "f").map Block.chunk = chunksOf [1, 2] ∧
      (∀ ck ∈ chunksOf [1, 2], ck.length ≤ CHUNK_SIZE) ∧
      (∀ ck ∈ (chunksOf [1, 2]).dropLast, ck.length = CHUNK_SIZE)) ∧
    (∀ H2 : Hash, (∀ b ∈ [c5block], b.hash ≠ H2) →
      BlockChain.get c5state H2 2 = []) :=
  c5_get_file c5state [c5block] [1, 2] "f" 2
    (@Built.step emptyMem [] c5block
      (hash_block (Block.set_previous none c5block)) c5state
      Built.nil (by rfl))
    (by decide)
    (by rw [show ([c5block].filter
        (fun x => x.hash = Hash.shaBytes [1, 2])) = [c5block] from by decide,
      c5_load_eval])

instance (bs : List Block) (H : Hash) : Decidable (SecGood bs H) := by
  unfold SecGood
  infer_instance

/-- Concrete block used by the C1 counterexample: its `file_hash` label is
not the digest of its chunk, yet `add` accepts it. -/
def c1block : Block :=
  { hash := Hash.raw "zz", index_all := 1, ordinal := 0, chunk := [120],
    filename := "f" }

/-- The state after adding `c1block` once to a fresh chain. -/
def c1state : MemoryDictionary := (BlockChain.add emptyMem c1block 1).2

/-- C1 counterexample: one successful add of a block whose `file_hash`
label is not the SHA-256 of its chunk; the number of distinct file hashes
among the added blocks is 1, yet `check()` returns `(false, 1)`, not
`(true, 1)` as claimed. -/
theorem c1_counterexample :
    (BlockChain.add emptyMem c1block 1).1 =
      .ok (hash_block (Block.set_previous none c1block)) ∧
    ([c1block].map Block.hash).dedup.length = 1 ∧
    BlockChain.check c1state 2 = (false, 1) ∧
    ((false, 1) : Bool × Nat) ≠ ((true, 1) : Bool × Nat) := by
  refine ⟨by rfl, by decide, ?_, by decide⟩
  have hch : check_hash c1state (Hash.raw "zz") 2 = (false, 1) := by decide
  have hloop : checkLoop c1state 2
      (some (hash_block (Block.set_previous none c1block)))
      (c1state.get (some (hash_block (Block.set_previous none c1block))))
      [] = ([Hash.raw "zz"], none, true) := by decide
  show BlockChain.check c1state 2 = (false, 1)
  have hhead : c1state.get_head =
      some (hash_block (Block.set_previous none c1block)) := by decide
  rw [BlockChain.check, hhead]
  simp only [hloop]
  simp [hch]

/-- C1 amended: for every sequence of successful adds from an empty
chain in which the blocks of every distinct file hash form a consistent
complete section (`SecGood`), `check()` returns `(true, k)` where `k` is
the number of distinct `file_hash` values among the added blocks. -/
theorem c1_check_amended (m : MemoryDictionary) (bs : List Block)
    (fuel : Nat) (hB : Built m bs) (hfuel : m.size < fuel)
    (hgood : ∀ H ∈ bs.map Block.hash, SecGood bs H) :
    BlockChain.check m fuel = (true, (bs.map Block.hash).dedup.length) := by
  have inv := built_inv hB
  have hf : (buildChain bs).length < fuel := by
    rw [← inv.size_eq]; exact hfuel
  rw [check_inv inv hf]
  have hcount : (((buildChain bs).map Block.hash).foldl
      setInsert []).length = (bs.map Block.hash).dedup.length := by
    rw [foldl_setInsert_length, buildChain_hash, dedup_length_reverse]
  have hall : (((buildChain bs).map Block.hash).foldl setInsert []).all
      (fun hc => (check_hash m hc fuel).1) = true := by
    rw [List.all_eq_true]
    intro hc hmem
    have hmem2 : hc ∈ (buildChain bs).map Block.hash :=
      ((foldl_setInsert_mem _ _ _).mp hmem).resolve_left
        (fun h => (List.not_mem_nil hc) h)
    rw [buildChain_hash, List.mem_reverse] at hmem2
    have hg := hgood hc hmem2
    rw [check_hash_built_good hB hf hg]
  rw [hall, hcount]

/-- Concrete well-labelled block used by the C1 witness. -/
def c1gblock : Block :=
  { hash := Hash.shaBytes [5], index_all := 1, ordinal := 0, chunk := [5],
    filename := "f" }

/-- The state after adding `c1gblock` once to a fresh chain. -/
def c1gstate : MemoryDictionary := (BlockChain.add emptyMem c1gblock 1).2

theorem c1_witness :
    BlockChain.check c1gstate 2 =
      (true, ([c1gblock].map Block.hash).dedup.length) :=
  c1_check_amended c1gstate [c1gblock] 2
    (@Built.step emptyMem [] c1gblock
      (hash_block (Block.set_previous none c1gblock)) c1gstate
      Built.nil (by rfl))
    (by decide) (by decide)

end Networks
